import Mathlib

/-!
Shallow embedding of the `interval_map` class of `src/main.cc`.

The C++ class stores a `std::map<K,V>`; the test harness instantiates it at
`K = V = unsigned int` with all keys and values below 10, so we model both
types by `Nat` (the minimum representable key, produced by
`std::numeric_limits<K>::lowest()`, is `0`, and no arithmetic overflow can
occur because the code only compares keys).

The `std::map` is modelled by a list of (key, value) pairs kept sorted by
strictly increasing key.  A `std::map` iterator is modelled by the key of the
entry it points to (`Option Nat`, with `none` playing the role of the
past-the-end iterator `m_map.end()`): in `std::map`, insertions never
invalidate iterators and erasures invalidate exactly the erased positions, so
as long as an entry is alive the key identifies it.  Dereferencing or
decrementing an iterator where the C++ program would have undefined behaviour
(decrementing `begin()`, dereferencing `end()`) is modelled by propagating
`none` out of `assign` / `lookup`.
-/

namespace IntervalMap

/-- An entry of the map: a (breakpoint key, value) pair. -/
abbrev Entry := Nat × Nat

/-- The model of `std::map<K,V> m_map`: a list of entries sorted by
strictly increasing key. -/
abbrev IMap := List Entry

/-- Model of `m_map.lower_bound(k)` (src/main.cc lines 34 and 60): the first
entry whose key is not less than `k`, returned as an iterator (its key), or
`none` for `m_map.end()`. -/
def lowerBound (m : IMap) (k : Nat) : Option Nat :=
  (m.find? (fun p => decide (k ≤ p.1))).map (fun p => p.1)

/-- Model of `m_map.upper_bound(k)` (src/main.cc line 84) and also of `++it`
on an iterator pointing at the entry with key `k`: the first entry whose key
is greater than `k`. -/
def upperBound (m : IMap) (k : Nat) : Option Nat :=
  (m.find? (fun p => decide (k < p.1))).map (fun p => p.1)

/-- Model of `--it`: the entry just before the position denoted by `it`
(`none` denotes `m_map.end()`, so `pred m none` is the last entry).  The
result is the full entry, since the C++ code always dereferences the
decremented iterator.  A `none` result means the C++ decrement was applied to
`m_map.begin()`, which is undefined behaviour. -/
def pred (m : IMap) (it : Option Nat) : Option Entry :=
  match it with
  | none => m.getLast?
  | some j => (m.takeWhile (fun p => decide (p.1 < j))).getLast?

/-- Dereference (read the value of) the entry with key `k`; used only where
the C++ code dereferences an iterator known to point at the entry with key
`k`, so the default value 0 is never produced on such calls. -/
def valueAtD (m : IMap) (k : Nat) : Nat :=
  ((m.find? (fun p => decide (p.1 = k))).map (fun p => p.2)).getD 0

/-- Model of `it->second = val` on the entry with key `k`
(src/main.cc line 39). -/
def setValue (m : IMap) (k v : Nat) : IMap :=
  m.map (fun p => if p.1 = k then (k, v) else p)

/-- Model of `m_map.insert(hint, e)` (src/main.cc lines 17, 51 and 72):
ordered insertion.  Like `std::map::insert`, an already-present key is left
unchanged (in the C++ code the inserted key is in fact always fresh). -/
def insertEntry : IMap → Entry → IMap
  | [], e => [e]
  | p :: ps, e =>
    if e.1 < p.1 then e :: p :: ps
    else if e.1 = p.1 then p :: ps
    else p :: insertEntry ps e

/-- Model of `m_map.erase(it)` for the single entry with key `k`
(src/main.cc line 75). -/
def eraseKey (m : IMap) (k : Nat) : IMap :=
  m.filter (fun p => decide (p.1 ≠ k))

/-- Model of `m_map.erase(first, last)` (src/main.cc line 79) where `first`
points at the entry with key `a` and `last` at the entry with key `b`: on a
sorted map this erases exactly the entries whose keys lie in `[a, b)`. -/
def eraseRange (m : IMap) (a b : Nat) : IMap :=
  m.filter (fun p => decide (p.1 < a ∨ b ≤ p.1))

/-- Model of the constructor (src/main.cc lines 15-18): a single entry
associating the minimum representable key (0 for `unsigned int`) with the
default value. -/
def init (val : Nat) : IMap :=
  [(0, val)]

/-- The state of the local variables of `assign` after the left-boundary
phase (src/main.cc lines 31-57): the updated map, the iterators `begin` and
`eraseBegin`, the value `endValue`, and the flag `erase`. -/
structure Phase1Out where
  m : IMap
  begin1 : Option Nat
  eraseBegin : Option Nat
  endValue : Nat
  erase : Bool
deriving Repr, DecidableEq

/-- Left-boundary phase of `assign` (src/main.cc lines 31-57).
`none` signals undefined behaviour (`--prev` applied to `m_map.begin()`,
line 47, possible only when the minimum key is absent). -/
def phase1 (m : IMap) (keyBegin val : Nat) : Option Phase1Out :=
  let begin0 := lowerBound m keyBegin
  if begin0 = some keyBegin then
    -- lines 36-43: keyBegin already exists, change the value in place
    let endValue := valueAtD m keyBegin
    let m1 := setValue m keyBegin val
    let eraseBegin := upperBound m1 keyBegin
    some ⟨m1, some keyBegin, eraseBegin, endValue, eraseBegin.isSome⟩
  else
    -- lines 44-57: keyBegin absent, remember prev and maybe insert
    match pred m begin0 with
    | none => none
    | some pv =>
      if pv.2 ≠ val then
        let m1 := insertEntry m (keyBegin, val)
        some ⟨m1, some keyBegin, upperBound m1 keyBegin, pv.2, true⟩
      else
        some ⟨m, begin0, begin0, pv.2, true⟩

/-- Model of src/main.cc lines 78-79: the final erase of the interior
entries, guarded by the `erase` flag, by both iterators being distinct from
`m_map.end()`, and by `eraseBegin->first < eraseEnd->first`. -/
def finishErase (eb ee : Option Nat) (er : Bool) (m : IMap) : IMap :=
  match eb, ee with
  | some a, some b => if er then (if a < b then eraseRange m a b else m) else m
  | _, _ => m

/-- Model of src/main.cc lines 74-75: after inserting `(e, ev)`, erase the
successor entry if it holds the same value `ev`. -/
def eraseNextIfRedundant (m : IMap) (e ev : Nat) : IMap :=
  match upperBound m e with
  | some nk => if valueAtD m nk = ev then eraseKey m nk else m
  | none => m

/-- Right-boundary phase and final interior erase of `assign`
(src/main.cc lines 59-79), starting from the phase-1 state.  `none` signals
undefined behaviour at the `--prev` of line 67. -/
def phase2 (keyEnd val : Nat) (o : Phase1Out) : Option IMap :=
  let end0 := lowerBound o.m keyEnd
  -- lines 61-63
  let erase1 := if end0 = o.eraseBegin then false else o.erase
  if end0 ≠ some keyEnd then
    -- lines 64-77: keyEnd absent, restore the tail value
    match pred o.m end0 with
    | none => none
    | some pv =>
      let endValue := if some pv.1 ≠ o.begin1 then pv.2 else o.endValue
      if endValue ≠ val then
        some (finishErase o.eraseBegin (some keyEnd) erase1
          (eraseNextIfRedundant (insertEntry o.m (keyEnd, endValue))
            keyEnd endValue))
      else
        some (finishErase o.eraseBegin end0 erase1 o.m)
  else
    some (finishErase o.eraseBegin end0 erase1 o.m)

/-- Model of `interval_map::assign` (src/main.cc lines 27-80).  Returns
`none` exactly when the C++ code would run into iterator undefined behaviour
(never, on well-formed states). -/
def assign (m : IMap) (keyBegin keyEnd val : Nat) : Option IMap :=
  if keyBegin < keyEnd then
    (phase1 m keyBegin val).bind (phase2 keyEnd val)
  else
    some m

/-- Model of `interval_map::operator[]` (src/main.cc lines 82-85):
`(--m_map.upper_bound(key))->second`.  A `none` result means the decrement
hit `m_map.begin()`, which is undefined behaviour in the C++ code. -/
def lookup (m : IMap) (k : Nat) : Option Nat :=
  (pred m (upperBound m k)).map (fun p => p.2)

/-- One `assign` step per element of `ops`, starting from the map `m`;
propagates the undefined-behaviour marker. -/
def runFrom (m : IMap) : List (Nat × Nat × Nat) → Option IMap
  | [] => some m
  | op :: ops =>
    match assign m op.1 op.2.1 op.2.2 with
    | none => none
    | some m1 => runFrom m1 ops

/-- The map obtained by constructing with default value `d` and then playing
the list of `assign(b, e, v)` calls `ops`. -/
def run (d : Nat) (ops : List (Nat × Nat × Nat)) : Option IMap :=
  runFrom (init d) ops

/-- Invariant I2 of the spec (canonical form): no two consecutive entries
hold equal values. -/
def canonical : IMap → Bool
  | [] => true
  | [_] => true
  | p :: q :: rest => (decide (p.2 ≠ q.2)) && canonical (q :: rest)

/-- The brute-force reference semantics of the spec: one `assign(b,e,v)`
mirrored into a total function sets every key of `[b, e)` to `v`. -/
def refAssign (A : Nat → Nat) (b e v : Nat) : Nat → Nat :=
  fun i => if b ≤ i ∧ i < e then v else A i

/-- The reference function after a default value `d` and a list of
`assign` calls. -/
def refRun (d : Nat) (ops : List (Nat × Nat × Nat)) : Nat → Nat :=
  ops.foldl (fun A op => refAssign A op.1 op.2.1 op.2.2) (fun _ => d)

/-- Keys of the map are strictly increasing (always true of a
`std::map<K,V>` with the default comparator). -/
def SortedKeys (m : IMap) : Prop :=
  m.Pairwise (fun p q => p.1 < q.1)

/-- Invariant I1 of the spec: an entry at the minimum representable key. -/
def HasMin (m : IMap) : Prop :=
  ∃ v, (0, v) ∈ m

/-- Well-formed states: sorted, with the minimum key present.  Every state
of the C++ object is of this shape. -/
def WF (m : IMap) : Prop :=
  SortedKeys m ∧ HasMin m

/-- The map has an entry with key `k`. -/
def hasKey (m : IMap) (k : Nat) : Prop :=
  ∃ v, (k, v) ∈ m

/-- The entry `pv` is the one with the greatest key strictly below `k`. -/
def IGB (m : IMap) (k : Nat) (pv : Entry) : Prop :=
  pv ∈ m ∧ pv.1 < k ∧ ∀ p ∈ m, p.1 < k → p.1 ≤ pv.1

/-! ### Basic facts about sorted association lists -/

theorem sortedKeys_cons {p : Entry} {m : IMap} :
    SortedKeys (p :: m) ↔ (∀ q ∈ m, p.1 < q.1) ∧ SortedKeys m :=
  List.pairwise_cons

theorem SortedKeys.tail {p : Entry} {m : IMap} (h : SortedKeys (p :: m)) :
    SortedKeys m :=
  (sortedKeys_cons.mp h).2

theorem SortedKeys.head_lt {p : Entry} {m : IMap} (h : SortedKeys (p :: m)) :
    ∀ q ∈ m, p.1 < q.1 :=
  (sortedKeys_cons.mp h).1

theorem key_unique {m : IMap} (hs : SortedKeys m) {k v w : Nat}
    (hv : (k, v) ∈ m) (hw : (k, w) ∈ m) : v = w := by
  induction m with
  | nil => cases hv
  | cons p rest ih =>
    rcases List.mem_cons.mp hv with hv1 | hv2
    · rcases List.mem_cons.mp hw with hw1 | hw2
      · rw [← hv1] at hw1; exact (Prod.mk.injEq _ _ _ _ ▸ hw1.symm).2
      · have := hs.head_lt _ hw2; rw [← hv1] at this
        exact absurd this (lt_irrefl k)
    · rcases List.mem_cons.mp hw with hw1 | hw2
      · have := hs.head_lt _ hv2; rw [← hw1] at this
        exact absurd this (lt_irrefl k)
      · exact ih hs.tail hv2 hw2

theorem entry_unique {m : IMap} (hs : SortedKeys m) {p q : Entry}
    (hp : p ∈ m) (hq : q ∈ m) (hk : p.1 = q.1) : p = q := by
  obtain ⟨k, v⟩ := p
  obtain ⟨k2, w⟩ := q
  cases hk
  exact Prod.ext rfl (key_unique hs hp hq)

/-! ### Characterization of `lowerBound` -/

theorem lowerBound_nil {k : Nat} : lowerBound [] k = none := rfl

theorem lowerBound_cons {x : Entry} {m : IMap} {k : Nat} :
    lowerBound (x :: m) k = if k ≤ x.1 then some x.1 else lowerBound m k := by
  by_cases h : k ≤ x.1
  · simp [lowerBound, List.find?_cons, h]
  · simp [lowerBound, List.find?_cons, h]

theorem lb_none_iff {m : IMap} {k : Nat} :
    lowerBound m k = none ↔ ∀ p ∈ m, p.1 < k := by
  induction m with
  | nil => simp [lowerBound_nil]
  | cons x rest ih =>
    rw [lowerBound_cons]
    by_cases h : k ≤ x.1
    · simp only [if_pos h]
      constructor
      · intro hc; cases hc
      · intro hall
        exact absurd (hall x (List.mem_cons_self _ _)) (by omega)
    · simp only [if_neg h, ih]
      constructor
      · intro hall p hp
        rcases List.mem_cons.mp hp with rfl | hm
        · omega
        · exact hall p hm
      · intro hall p hp
        exact hall p (List.mem_cons_of_mem _ hp)

theorem lb_mem_le {m : IMap} {k j : Nat} (h : lowerBound m k = some j) :
    ∃ w, (j, w) ∈ m ∧ k ≤ j := by
  induction m with
  | nil => cases h
  | cons x rest ih =>
    rw [lowerBound_cons] at h
    by_cases hx : k ≤ x.1
    · rw [if_pos hx] at h
      obtain rfl : x.1 = j := by injection h
      exact ⟨x.2, List.mem_cons_self _ _, hx⟩
    · rw [if_neg hx] at h
      obtain ⟨w, hw, hkj⟩ := ih h
      exact ⟨w, List.mem_cons_of_mem _ hw, hkj⟩

theorem lb_min {m : IMap} (hs : SortedKeys m) {k j : Nat}
    (h : lowerBound m k = some j) : ∀ p ∈ m, k ≤ p.1 → j ≤ p.1 := by
  induction m with
  | nil => cases h
  | cons x rest ih =>
    intro p hp hkp
    rw [lowerBound_cons] at h
    by_cases hx : k ≤ x.1
    · rw [if_pos hx] at h
      obtain rfl : x.1 = j := by injection h
      rcases List.mem_cons.mp hp with rfl | hmem
      · exact le_refl _
      · exact le_of_lt (hs.head_lt _ hmem)
    · rw [if_neg hx] at h
      rcases List.mem_cons.mp hp with rfl | hmem
      · exact absurd hkp hx
      · exact ih hs.tail h p hmem hkp

theorem lb_eq_some_of_mem {m : IMap} (hs : SortedKeys m) {k v : Nat}
    (h : (k, v) ∈ m) : lowerBound m k = some k := by
  induction m with
  | nil => cases h
  | cons x rest ih =>
    rw [lowerBound_cons]
    by_cases hx : k ≤ x.1
    · rw [if_pos hx]
      rcases List.mem_cons.mp h with rfl | hmem
      · rfl
      · exact absurd (hs.head_lt _ hmem) (by omega)
    · rw [if_neg hx]
      rcases List.mem_cons.mp h with rfl | hmem
      · exact absurd (le_refl _) hx
      · exact ih hs.tail hmem

theorem lb_eq_some_intro {m : IMap} (hs : SortedKeys m) {k j w : Nat}
    (hj : (j, w) ∈ m) (hkj : k ≤ j)
    (hmin : ∀ p ∈ m, k ≤ p.1 → j ≤ p.1) : lowerBound m k = some j := by
  induction m with
  | nil => cases hj
  | cons x rest ih =>
    rw [lowerBound_cons]
    by_cases hx : k ≤ x.1
    · rw [if_pos hx]
      have hjx : j ≤ x.1 := hmin x (List.mem_cons_self _ _) hx
      rcases List.mem_cons.mp hj with rfl | hmem
      · rfl
      · exact absurd (hs.head_lt _ hmem) (by omega)
    · rw [if_neg hx]
      rcases List.mem_cons.mp hj with rfl | hmem
      · exact absurd hkj hx
      · exact ih hs.tail hmem (fun p hp => hmin p (List.mem_cons_of_mem _ hp))

theorem not_hasKey_of_lb_ne {m : IMap} (hs : SortedKeys m) {k : Nat}
    (h : lowerBound m k ≠ some k) : ¬ hasKey m k := by
  rintro ⟨v, hv⟩
  exact h (lb_eq_some_of_mem hs hv)

/-! ### Characterization of `upperBound` -/

theorem ub_eq_lb_succ (m : IMap) (k : Nat) :
    upperBound m k = lowerBound m (k + 1) := rfl

theorem ub_none_iff {m : IMap} {k : Nat} :
    upperBound m k = none ↔ ∀ p ∈ m, p.1 ≤ k := by
  rw [ub_eq_lb_succ, lb_none_iff]
  constructor <;> intro h p hp <;> have := h p hp <;> omega

theorem ub_mem_lt {m : IMap} {k j : Nat} (h : upperBound m k = some j) :
    ∃ w, (j, w) ∈ m ∧ k < j := by
  rw [ub_eq_lb_succ] at h
  obtain ⟨w, hw, hkj⟩ := lb_mem_le h
  exact ⟨w, hw, by omega⟩

theorem ub_min {m : IMap} (hs : SortedKeys m) {k j : Nat}
    (h : upperBound m k = some j) : ∀ p ∈ m, k < p.1 → j ≤ p.1 := by
  rw [ub_eq_lb_succ] at h
  intro p hp hkp
  exact lb_min hs h p hp (by omega)

theorem ub_eq_some_intro {m : IMap} (hs : SortedKeys m) {k j w : Nat}
    (hj : (j, w) ∈ m) (hkj : k < j)
    (hmin : ∀ p ∈ m, k < p.1 → j ≤ p.1) : upperBound m k = some j := by
  rw [ub_eq_lb_succ]
  exact lb_eq_some_intro hs hj (by omega) (fun p hp hkp => hmin p hp (by omega))

/-! ### Characterization of `getLast?` on sorted lists -/

theorem getLast_elim {m : IMap} (hs : SortedKeys m) {pv : Entry}
    (h : m.getLast? = some pv) : pv ∈ m ∧ ∀ p ∈ m, p.1 ≤ pv.1 := by
  induction m with
  | nil => cases h
  | cons x rest ih =>
    cases rest with
    | nil =>
      obtain rfl : x = pv := by injection h
      refine ⟨List.mem_cons_self _ _, ?_⟩
      intro p hp
      rcases List.mem_cons.mp hp with rfl | h2
      · exact le_refl _
      · cases h2
    | cons y rest2 =>
      rw [List.getLast?_cons_cons] at h
      obtain ⟨hmem, hmax⟩ := ih hs.tail h
      refine ⟨List.mem_cons_of_mem _ hmem, ?_⟩
      intro p hp
      rcases List.mem_cons.mp hp with rfl | hm
      · exact le_of_lt (hs.head_lt _ hmem)
      · exact hmax p hm

theorem getLast_intro {m : IMap} (hs : SortedKeys m) {pv : Entry}
    (hmem : pv ∈ m) (hmax : ∀ p ∈ m, p.1 ≤ pv.1) : m.getLast? = some pv := by
  induction m with
  | nil => cases hmem
  | cons x rest ih =>
    cases rest with
    | nil =>
      rcases List.mem_cons.mp hmem with rfl | hm
      · rfl
      · cases hm
    | cons y rest2 =>
      rw [List.getLast?_cons_cons]
      rcases List.mem_cons.mp hmem with rfl | hm
      · have h1 := hs.head_lt y (List.mem_cons_self _ _)
        have h2 := hmax y (List.mem_cons_of_mem _ (List.mem_cons_self _ _))
        omega
      · exact ih hs.tail hm (fun p hp => hmax p (List.mem_cons_of_mem _ hp))

theorem getLast_isSome {m : IMap} (h : m ≠ []) : ∃ pv, m.getLast? = some pv := by
  cases m with
  | nil => exact absurd rfl h
  | cons x rest =>
    cases hg : (x :: rest).getLast? with
    | some pv => exact ⟨pv, rfl⟩
    | none => rw [List.getLast?_eq_none_iff] at hg; cases hg

/-! ### Characterization of `pred` -/

theorem mem_takeWhile_lt {m : IMap} (hs : SortedKeys m) {j : Nat} {p : Entry} :
    p ∈ m.takeWhile (fun q => decide (q.1 < j)) ↔ p ∈ m ∧ p.1 < j := by
  induction m with
  | nil => simp
  | cons x rest ih =>
    rw [List.takeWhile_cons]
    by_cases hx : x.1 < j
    · rw [decide_eq_true hx, if_pos rfl, List.mem_cons, List.mem_cons,
        ih hs.tail]
      constructor
      · rintro (rfl | ⟨hm, hlt⟩)
        · exact ⟨Or.inl rfl, hx⟩
        · exact ⟨Or.inr hm, hlt⟩
      · rintro ⟨rfl | hm, hlt⟩
        · exact Or.inl rfl
        · exact Or.inr ⟨hm, hlt⟩
    · rw [decide_eq_false hx, if_neg (by simp)]
      simp only [List.not_mem_nil, false_iff]
      rintro ⟨hm, hlt⟩
      rcases List.mem_cons.mp hm with rfl | hm2
      · exact hx hlt
      · have := hs.head_lt _ hm2
        omega

theorem sorted_takeWhile {m : IMap} (hs : SortedKeys m) (f : Entry → Bool) :
    SortedKeys (m.takeWhile f) :=
  List.Pairwise.sublist (List.takeWhile_sublist f) hs

theorem pred_none_intro {m : IMap} (hs : SortedKeys m) {pv : Entry}
    (hmem : pv ∈ m) (hmax : ∀ p ∈ m, p.1 ≤ pv.1) : pred m none = some pv :=
  getLast_intro hs hmem hmax

theorem pred_none_elim {m : IMap} (hs : SortedKeys m) {pv : Entry}
    (h : pred m none = some pv) : pv ∈ m ∧ ∀ p ∈ m, p.1 ≤ pv.1 :=
  getLast_elim hs h

theorem pred_some_intro {m : IMap} (hs : SortedKeys m) {j : Nat} {pv : Entry}
    (hmem : pv ∈ m) (hlt : pv.1 < j)
    (hmax : ∀ p ∈ m, p.1 < j → p.1 ≤ pv.1) : pred m (some j) = some pv := by
  unfold pred
  refine getLast_intro (sorted_takeWhile hs _) ?_ ?_
  · exact (mem_takeWhile_lt hs).mpr ⟨hmem, hlt⟩
  · intro p hp
    obtain ⟨hm, hl⟩ := (mem_takeWhile_lt hs).mp hp
    exact hmax p hm hl

theorem pred_some_elim {m : IMap} (hs : SortedKeys m) {j : Nat} {pv : Entry}
    (h : pred m (some j) = some pv) : IGB m j pv := by
  unfold pred at h
  obtain ⟨hmem, hmax⟩ := getLast_elim (sorted_takeWhile hs _) h
  obtain ⟨hm, hl⟩ := (mem_takeWhile_lt hs).mp hmem
  exact ⟨hm, hl, fun p hp hpj => hmax p ((mem_takeWhile_lt hs).mpr ⟨hp, hpj⟩)⟩

theorem IGB_exists {m : IMap} (hs : SortedKeys m) {k : Nat} {q : Entry}
    (hq : q ∈ m) (hqk : q.1 < k) : ∃ pv, IGB m k pv := by
  have hne : m.takeWhile (fun p => decide (p.1 < k)) ≠ [] := by
    intro hc
    have := (mem_takeWhile_lt hs).mpr ⟨hq, hqk⟩
    rw [hc] at this
    cases this
  obtain ⟨pv, hpv⟩ := getLast_isSome hne
  exact ⟨pv, pred_some_elim hs (j := k) hpv⟩

theorem IGB_unique {m : IMap} (hs : SortedKeys m) {k : Nat} {pv qv : Entry}
    (h1 : IGB m k pv) (h2 : IGB m k qv) : pv = qv := by
  obtain ⟨hm1, hl1, hx1⟩ := h1
  obtain ⟨hm2, hl2, hx2⟩ := h2
  have ha := hx1 qv hm2 hl2
  have hb := hx2 pv hm1 hl1
  exact entry_unique hs hm1 hm2 (by omega)

theorem pred_lb_eq {m : IMap} (hs : SortedKeys m) {k : Nat} {pv : Entry}
    (hnk : ¬ hasKey m k) (hpv : IGB m k pv) :
    pred m (lowerBound m k) = some pv := by
  obtain ⟨hmem, hlt, hmax⟩ := hpv
  cases hlb : lowerBound m k with
  | none =>
    have hall := lb_none_iff.mp hlb
    exact pred_none_intro hs hmem (fun p hp => hmax p hp (hall p hp))
  | some j =>
    obtain ⟨w, hw, hkj⟩ := lb_mem_le hlb
    have hjk : k ≠ j := by rintro rfl; exact hnk ⟨w, hw⟩
    have hmin := lb_min hs hlb
    refine pred_some_intro hs hmem (by omega) ?_
    intro p hp hpj
    have hpk : p.1 < k := by
      by_contra hc
      have := hmin p hp (by omega)
      omega
    exact hmax p hp hpk

theorem pred_lb_elim {m : IMap} (hs : SortedKeys m) {k : Nat} {pv : Entry}
    (hnk : ¬ hasKey m k) (h : pred m (lowerBound m k) = some pv) :
    IGB m k pv := by
  cases hlb : lowerBound m k with
  | none =>
    rw [hlb] at h
    obtain ⟨hmem, hmax⟩ := pred_none_elim hs h
    have hall := lb_none_iff.mp hlb
    exact ⟨hmem, hall pv hmem, fun p hp _ => hmax p hp⟩
  | some j =>
    rw [hlb] at h
    obtain ⟨hmem, hlt, hmax⟩ := pred_some_elim hs h
    obtain ⟨w, hw, hkj⟩ := lb_mem_le hlb
    have hjk : k ≠ j := by rintro rfl; exact hnk ⟨w, hw⟩
    have hmin := lb_min hs hlb
    have hpvk : pv.1 < k := by
      by_contra hc
      have := hmin pv hmem (by omega)
      omega
    refine ⟨hmem, hpvk, ?_⟩
    intro p hp hpk
    exact hmax p hp (by omega)

/-! ### Lemmas about `setValue` -/

theorem sorted_setValue {m : IMap} (hs : SortedKeys m) (k v : Nat) :
    SortedKeys (setValue m k v) := by
  unfold setValue
  rw [SortedKeys, List.pairwise_map]
  refine hs.imp_of_mem ?_
  intro p q _ _ hpq
  by_cases hp : p.1 = k <;> by_cases hq : q.1 = k <;>
    simp [hp, hq] <;> omega

theorem mem_setValue_self {m : IMap} {k w : Nat} (h : (k, w) ∈ m) (v : Nat) :
    (k, v) ∈ setValue m k v := by
  unfold setValue
  have := List.mem_map_of_mem (fun p : Entry => if p.1 = k then (k, v) else p) h
  simpa using this

theorem mem_setValue_of_ne {m : IMap} {k v : Nat} {p : Entry}
    (h : p ∈ m) (hne : p.1 ≠ k) : p ∈ setValue m k v := by
  unfold setValue
  refine List.mem_map.mpr ⟨p, h, ?_⟩
  rw [if_neg hne]

theorem mem_setValue_elim {m : IMap} {k v : Nat} {p : Entry}
    (h : p ∈ setValue m k v) :
    (p ∈ m ∧ p.1 ≠ k) ∨ (p.1 = k ∧ p.2 = v ∧ hasKey m k) := by
  unfold setValue at h
  obtain ⟨q, hq, hqp⟩ := List.mem_map.mp h
  by_cases hqk : q.1 = k
  · rw [if_pos hqk] at hqp
    right
    refine ⟨by rw [← hqp], by rw [← hqp], ⟨q.2, ?_⟩⟩
    have : q = (k, q.2) := by
      obtain ⟨q1, q2⟩ := q
      simp only at hqk
      rw [hqk]
    rw [← this]
    exact hq
  · rw [if_neg hqk] at hqp
    exact Or.inl ⟨hqp ▸ hq, hqp ▸ hqk⟩

theorem setValue_id {m : IMap} {k v : Nat}
    (h : ∀ p ∈ m, p.1 = k → p.2 = v) : setValue m k v = m := by
  unfold setValue
  have : ∀ p ∈ m, (if p.1 = k then ((k, v) : Entry) else p) = id p := by
    intro p hp
    by_cases hpk : p.1 = k
    · rw [if_pos hpk]
      have h2 := h p hp hpk
      obtain ⟨p1, p2⟩ := p
      simp only at hpk h2
      rw [hpk, h2]
      rfl
    · rw [if_neg hpk]
      rfl
  rw [List.map_congr_left this, List.map_id]

theorem hasKey_setValue {m : IMap} {k v x : Nat} :
    hasKey (setValue m k v) x ↔ hasKey m x := by
  constructor
  · rintro ⟨w, hw⟩
    rcases mem_setValue_elim hw with ⟨hm, _⟩ | ⟨hx, _, hk⟩
    · exact ⟨w, hm⟩
    · simp only at hx
      rw [hx]
      exact hk
  · rintro ⟨w, hw⟩
    by_cases hxk : x = k
    · subst hxk
      exact ⟨v, mem_setValue_self hw v⟩
    · exact ⟨w, mem_setValue_of_ne hw (by simpa using hxk)⟩

/-! ### Lemmas about `insertEntry` -/

theorem mem_insertEntry_of_mem {m : IMap} {e p : Entry} (h : p ∈ m) :
    p ∈ insertEntry m e := by
  induction m with
  | nil => cases h
  | cons x rest ih =>
    unfold insertEntry
    by_cases h1 : e.1 < x.1
    · rw [if_pos h1]
      exact List.mem_cons_of_mem _ h
    · rw [if_neg h1]
      by_cases h2 : e.1 = x.1
      · rw [if_pos h2]
        exact h
      · rw [if_neg h2]
        rcases List.mem_cons.mp h with rfl | hm
        · exact List.mem_cons_self _ _
        · exact List.mem_cons_of_mem _ (ih hm)

theorem mem_insertEntry_elim {m : IMap} {e p : Entry}
    (h : p ∈ insertEntry m e) : p ∈ m ∨ p = e := by
  induction m with
  | nil =>
    unfold insertEntry at h
    rcases List.mem_cons.mp h with rfl | hm
    · exact Or.inr rfl
    · cases hm
  | cons x rest ih =>
    unfold insertEntry at h
    by_cases h1 : e.1 < x.1
    · rw [if_pos h1] at h
      rcases List.mem_cons.mp h with rfl | hm
      · exact Or.inr rfl
      · exact Or.inl hm
    · rw [if_neg h1] at h
      by_cases h2 : e.1 = x.1
      · rw [if_pos h2] at h
        exact Or.inl h
      · rw [if_neg h2] at h
        rcases List.mem_cons.mp h with rfl | hm
        · exact Or.inl (List.mem_cons_self _ _)
        · rcases ih hm with hm2 | hm2
          · exact Or.inl (List.mem_cons_of_mem _ hm2)
          · exact Or.inr hm2

theorem self_mem_insertEntry {m : IMap} {e : Entry} (h : ¬ hasKey m e.1) :
    e ∈ insertEntry m e := by
  induction m with
  | nil => exact List.mem_cons_self _ _
  | cons x rest ih =>
    unfold insertEntry
    by_cases h1 : e.1 < x.1
    · rw [if_pos h1]
      exact List.mem_cons_self _ _
    · rw [if_neg h1]
      by_cases h2 : e.1 = x.1
      · exfalso
        refine h ⟨x.2, ?_⟩
        have : x = (e.1, x.2) := by
          obtain ⟨x1, x2⟩ := x
          simp only at h2
          rw [h2]
        rw [← this]
        exact List.mem_cons_self _ _
      · rw [if_neg h2]
        refine List.mem_cons_of_mem _ (ih ?_)
        rintro ⟨w, hw⟩
        exact h ⟨w, List.mem_cons_of_mem _ hw⟩

theorem sorted_insertEntry {m : IMap} (hs : SortedKeys m) (e : Entry) :
    SortedKeys (insertEntry m e) := by
  induction m with
  | nil =>
    unfold insertEntry
    exact List.pairwise_singleton _ _
  | cons x rest ih =>
    unfold insertEntry
    by_cases h1 : e.1 < x.1
    · rw [if_pos h1]
      rw [sortedKeys_cons]
      refine ⟨?_, hs⟩
      intro q hq
      rcases List.mem_cons.mp hq with rfl | hm
      · exact h1
      · exact lt_trans h1 (hs.head_lt _ hm)
    · rw [if_neg h1]
      by_cases h2 : e.1 = x.1
      · rw [if_pos h2]
        exact hs
      · rw [if_neg h2]
        rw [sortedKeys_cons]
        refine ⟨?_, ih hs.tail⟩
        intro q hq
        rcases mem_insertEntry_elim hq with hm | rfl
        · exact hs.head_lt _ hm
        · omega

/-! ### Lemmas about `eraseKey` and `eraseRange` -/

theorem mem_eraseKey_iff {m : IMap} {k : Nat} {p : Entry} :
    p ∈ eraseKey m k ↔ p ∈ m ∧ p.1 ≠ k := by
  unfold eraseKey
  rw [List.mem_filter]
  simp

theorem sorted_eraseKey {m : IMap} (hs : SortedKeys m) (k : Nat) :
    SortedKeys (eraseKey m k) :=
  List.Pairwise.sublist (List.filter_sublist m) hs

theorem mem_eraseRange_iff {m : IMap} {a b : Nat} {p : Entry} :
    p ∈ eraseRange m a b ↔ p ∈ m ∧ (p.1 < a ∨ b ≤ p.1) := by
  unfold eraseRange
  rw [List.mem_filter]
  simp

theorem sorted_eraseRange {m : IMap} (hs : SortedKeys m) (a b : Nat) :
    SortedKeys (eraseRange m a b) :=
  List.Pairwise.sublist (List.filter_sublist m) hs

/-! ### Lemma about `valueAtD` -/

theorem valueAtD_of_mem {m : IMap} (hs : SortedKeys m) {k v : Nat}
    (h : (k, v) ∈ m) : valueAtD m k = v := by
  induction m with
  | nil => cases h
  | cons x rest ih =>
    unfold valueAtD
    rw [List.find?_cons]
    by_cases hx : x.1 = k
    · rw [decide_eq_true hx]
      simp only [Option.map_some, Option.getD_some]
      rcases List.mem_cons.mp h with rfl | hm
      · rfl
      · have hlt := hs.head_lt _ hm
        simp only at hlt
        omega
    · rw [decide_eq_false hx]
      rcases List.mem_cons.mp h with rfl | hm
      · exact absurd rfl hx
      · exact ih hs.tail hm

/-! ### Branch equations for `phase1` and `phase2` -/

theorem phase1_eq_found {m : IMap} {b val : Nat}
    (h : lowerBound m b = some b) :
    phase1 m b val = some ⟨setValue m b val, some b,
      upperBound (setValue m b val) b, valueAtD m b,
      (upperBound (setValue m b val) b).isSome⟩ := by
  simp only [phase1]
  rw [if_pos h]

theorem phase1_eq_insert {m : IMap} {b val : Nat} {pv : Entry}
    (h : lowerBound m b ≠ some b) (hp : pred m (lowerBound m b) = some pv)
    (hv : pv.2 ≠ val) :
    phase1 m b val = some ⟨insertEntry m (b, val), some b,
      upperBound (insertEntry m (b, val)) b, pv.2, true⟩ := by
  simp only [phase1]
  rw [if_neg h, hp]
  simp only [if_pos hv]

theorem phase1_eq_skip {m : IMap} {b val : Nat} {pv : Entry}
    (h : lowerBound m b ≠ some b) (hp : pred m (lowerBound m b) = some pv)
    (hv : pv.2 = val) :
    phase1 m b val = some ⟨m, lowerBound m b, lowerBound m b, pv.2, true⟩ := by
  simp only [phase1]
  rw [if_neg h, hp]
  simp only [hv, ne_eq, not_true_eq_false, if_false]

theorem phase2_eq_found {o : Phase1Out} {e val : Nat}
    (h : lowerBound o.m e = some e) :
    phase2 e val o = some (finishErase o.eraseBegin (some e)
      (if some e = o.eraseBegin then false else o.erase) o.m) := by
  simp only [phase2]
  rw [h]
  simp

theorem phase2_eq_skip {o : Phase1Out} {e val : Nat} {pv : Entry}
    (h : lowerBound o.m e ≠ some e)
    (hp : pred o.m (lowerBound o.m e) = some pv)
    (hv : (if some pv.1 ≠ o.begin1 then pv.2 else o.endValue) = val) :
    phase2 e val o = some (finishErase o.eraseBegin (lowerBound o.m e)
      (if lowerBound o.m e = o.eraseBegin then false else o.erase) o.m) := by
  simp only [phase2]
  rw [if_pos h, hp]
  simp only [hv, ne_eq, not_true_eq_false, if_false]

theorem phase2_eq_insert {o : Phase1Out} {e val ev : Nat} {pv : Entry}
    (h : lowerBound o.m e ≠ some e)
    (hp : pred o.m (lowerBound o.m e) = some pv)
    (hev : (if some pv.1 ≠ o.begin1 then pv.2 else o.endValue) = ev)
    (hv : ev ≠ val) :
    phase2 e val o = some (finishErase o.eraseBegin (some e)
      (if lowerBound o.m e = o.eraseBegin then false else o.erase)
      (eraseNextIfRedundant (insertEntry o.m (e, ev)) e ev)) := by
  simp only [phase2]
  rw [if_pos h, hp]
  simp only [hev]
  rw [if_pos hv]

/-! ### Post-state invariants of `assign`

The following three predicates describe the state left behind by a
successful `assign m b e val`.  Together with well-formedness they are
strong enough to make the state a fixed point of the same `assign` call
(theorem `assign_fixpoint` below), which is how idempotence is proved. -/

/-- After the call, either the entry at `b` holds `val`, or `b` is absent
and the nearest entry below `b` holds `val` (the merged-to-the-left case). -/
def LeftFix (m1 : IMap) (b val : Nat) : Prop :=
  (b, val) ∈ m1 ∨
    (¬ hasKey m1 b ∧ ∃ pv, IGB m1 b pv ∧ pv.2 = val)

/-- After the call, either no key lies strictly inside `(b, e)`, or every
key of the map is below `e` (the shape left by the buggy no-erase paths). -/
def MidFix (m1 : IMap) (b e : Nat) : Prop :=
  (∀ p ∈ m1, ¬ (b < p.1 ∧ p.1 < e)) ∨ (∀ p ∈ m1, p.1 < e)

/-- After the call, either some key is at or beyond `e`, or the last entry
of the map either holds `val`, or sits at or below `b`, or is the unique
entry at or beyond the absent key `b`. -/
def RightFix (m1 : IMap) (b e val : Nat) : Prop :=
  (∃ q ∈ m1, e ≤ q.1) ∨
    (∀ pl ∈ m1, (∀ q ∈ m1, q.1 ≤ pl.1) →
      pl.2 = val ∨ pl.1 ≤ b ∨
        (¬ hasKey m1 b ∧ ∀ q ∈ m1, b ≤ q.1 → q.1 = pl.1))

/-- Facts available about the phase-1 output, uniform across its three
branches. -/
structure Phase1Post (m : IMap) (b val : Nat) (o : Phase1Out) : Prop where
  sorted : SortedKeys o.m
  hasMin : HasMin o.m
  subset : ∀ p ∈ o.m, p ∈ m ∨ p.1 = b
  leftFix : LeftFix o.m b val
  ebSome : ∀ j, o.eraseBegin = some j →
    (∃ w, (j, w) ∈ o.m) ∧ b < j ∧ ∀ p ∈ o.m, b < p.1 → j ≤ p.1
  ebNone : o.eraseBegin = none → ∀ p ∈ o.m, p.1 ≤ b
  bgSome : ∀ j, o.begin1 = some j → j = b ∨
    (¬ hasKey o.m b ∧ (∃ w, (j, w) ∈ o.m) ∧ b < j ∧
      ∀ p ∈ o.m, b ≤ p.1 → j ≤ p.1)
  erFalse : o.erase = false → ∀ p ∈ o.m, p.1 ≤ b

theorem phase1_post {m : IMap} (hs : SortedKeys m) (hmin : HasMin m)
    (b val : Nat) : ∃ o, phase1 m b val = some o ∧ Phase1Post m b val o := by
  by_cases hlb : lowerBound m b = some b
  · -- keyBegin found: overwrite in place
    obtain ⟨w, hw, -⟩ := lb_mem_le hlb
    refine ⟨_, phase1_eq_found hlb, ?_⟩
    have hs1 : SortedKeys (setValue m b val) := sorted_setValue hs b val
    constructor
    · exact hs1
    · exact hasKey_setValue.mpr hmin
    · intro p hp
      rcases mem_setValue_elim hp with ⟨hm, _⟩ | ⟨hk, _, _⟩
      · exact Or.inl hm
      · exact Or.inr hk
    · exact Or.inl (mem_setValue_self hw val)
    · intro j hj
      simp only at hj
      obtain ⟨w2, hw2, hbj⟩ := ub_mem_lt hj
      exact ⟨⟨w2, hw2⟩, hbj, ub_min hs1 hj⟩
    · intro hj
      simp only at hj
      exact ub_none_iff.mp hj
    · intro j hj
      simp only at hj
      exact Or.inl (by injection hj; omega)
    · intro hf
      simp only at hf
      have hnone : upperBound (setValue m b val) b = none := by
        cases hub : upperBound (setValue m b val) b
        · rfl
        · rw [hub] at hf; cases hf
      exact ub_none_iff.mp hnone
  · -- keyBegin absent
    have hnk : ¬ hasKey m b := not_hasKey_of_lb_ne hs hlb
    obtain ⟨v0, hv0⟩ := id hmin
    have hb0 : 0 < b := by
      rcases Nat.eq_zero_or_pos b with rfl | h
      · exact absurd ⟨v0, hv0⟩ hnk
      · exact h
    obtain ⟨pv, hpv⟩ := IGB_exists hs hv0 hb0
    have hpred := pred_lb_eq hs hnk hpv
    obtain ⟨hpvm, hpvb, hpvmax⟩ := hpv
    by_cases hval : pv.2 = val
    · -- redundant: merged to the left, no insertion
      refine ⟨_, phase1_eq_skip hlb hpred hval, ?_⟩
      constructor
      · exact hs
      · exact hmin
      · exact fun p hp => Or.inl hp
      · exact Or.inr ⟨hnk, pv, ⟨hpvm, hpvb, hpvmax⟩, hval⟩
      · intro j hj
        simp only at hj
        obtain ⟨w2, hw2, hbj⟩ := lb_mem_le hj
        have hjb : j ≠ b := by rintro rfl; exact hnk ⟨w2, hw2⟩
        exact ⟨⟨w2, hw2⟩, by omega,
          fun p hp hbp => lb_min hs hj p hp (by omega)⟩
      · intro hj
        simp only at hj
        intro p hp
        exact le_of_lt (lb_none_iff.mp hj p hp)
      · intro j hj
        simp only at hj
        obtain ⟨w2, hw2, hbj⟩ := lb_mem_le hj
        have hjb : j ≠ b := by rintro rfl; exact hnk ⟨w2, hw2⟩
        exact Or.inr ⟨hnk, ⟨w2, hw2⟩, by omega, lb_min hs hj⟩
      · intro hf
        simp only at hf
        cases hf
    · -- genuine insertion of (b, val)
      refine ⟨_, phase1_eq_insert hlb hpred hval, ?_⟩
      have hs1 : SortedKeys (insertEntry m (b, val)) := sorted_insertEntry hs _
      have hbm : ((b, val) : Entry) ∈ insertEntry m (b, val) :=
        self_mem_insertEntry hnk
      constructor
      · exact hs1
      · exact ⟨v0, mem_insertEntry_of_mem hv0⟩
      · intro p hp
        rcases mem_insertEntry_elim hp with hm | rfl
        · exact Or.inl hm
        · exact Or.inr rfl
      · exact Or.inl hbm
      · intro j hj
        simp only at hj
        obtain ⟨w2, hw2, hbj⟩ := ub_mem_lt hj
        exact ⟨⟨w2, hw2⟩, hbj, ub_min hs1 hj⟩
      · intro hj
        simp only at hj
        exact ub_none_iff.mp hj
      · intro j hj
        simp only at hj
        exact Or.inl (by injection hj; omega)
      · intro hf
        simp only at hf
        cases hf

/-! ### Evaluation lemmas for `finishErase`, and monotonicity of the
fixpoint conditions -/

theorem finishErase_eb_none {ee : Option Nat} {er : Bool} {M : IMap} :
    finishErase none ee er M = M := by
  cases ee <;> rfl

theorem finishErase_ee_none {eb : Option Nat} {er : Bool} {M : IMap} :
    finishErase eb none er M = M := by
  cases eb <;> rfl

theorem finishErase_some_some {a j : Nat} {er : Bool} {M : IMap} :
    finishErase (some a) (some j) er M =
      if er then (if a < j then eraseRange M a j else M) else M := rfl

theorem leftFix_mono {M M2 : IMap} {b val : Nat} (hlf : LeftFix M b val)
    (hsub : ∀ p ∈ M2, p ∈ M ∨ b < p.1)
    (hkeep : ∀ p ∈ M, p.1 ≤ b → p ∈ M2) : LeftFix M2 b val := by
  rcases hlf with hb | ⟨hnk, pv, ⟨hm, hl, hmax⟩, hval⟩
  · exact Or.inl (hkeep _ hb (le_refl b))
  · refine Or.inr ⟨?_, pv, ⟨hkeep _ hm (le_of_lt hl), hl, ?_⟩, hval⟩
    · rintro ⟨w, hw⟩
      rcases hsub _ hw with hw2 | hw2
      · exact hnk ⟨w, hw2⟩
      · simp only at hw2
        omega
    · intro p hp hpb
      rcases hsub p hp with hp2 | hp2
      · exact hmax p hp2 hpb
      · omega

theorem midFix_of_noMid {M m1 : IMap} {b e : Nat}
    (h : ∀ p ∈ M, ¬ (b < p.1 ∧ p.1 < e))
    (hsub : ∀ p ∈ m1, p ∈ M ∨ ¬ p.1 < e) : MidFix m1 b e := by
  refine Or.inl ?_
  rintro p hp ⟨h1, h2⟩
  rcases hsub p hp with hm | hn
  · exact h p hm ⟨h1, h2⟩
  · exact hn h2

/-- Conclusion of the phase-2 analysis: the new state is well-formed, its
entries come from the phase-1 state except possibly a new one at `e`, and
the three fixpoint conditions hold. -/
def Post2 (M m1 : IMap) (b e val : Nat) : Prop :=
  WF m1 ∧ (∀ p ∈ m1, p ∈ M ∨ p.1 = e) ∧
    LeftFix m1 b val ∧ MidFix m1 b e ∧ RightFix m1 b e val

theorem phase2_post_found {m : IMap} {b val : Nat} {o : Phase1Out}
    (hp : Phase1Post m b val o) {e : Nat} (hbe : b < e)
    (hfound : lowerBound o.m e = some e) :
    ∃ m1, phase2 e val o = some m1 ∧ Post2 o.m m1 b e val := by
  obtain ⟨we, hwe, -⟩ := lb_mem_le hfound
  rw [phase2_eq_found hfound]
  cases heb : o.eraseBegin with
  | none =>
    rw [finishErase_eb_none]
    have hall := hp.ebNone heb
    refine ⟨o.m, rfl, ⟨hp.sorted, hp.hasMin⟩, fun p hp2 => Or.inl hp2,
      hp.leftFix, ?_, Or.inl ⟨(e, we), hwe, le_refl e⟩⟩
    exact midFix_of_noMid
      (fun p hpm hint => by have := hall p hpm; omega)
      (fun p hp2 => Or.inl hp2)
  | some a =>
    obtain ⟨⟨wa, hwa⟩, hba, hamin⟩ := hp.ebSome a heb
    rw [finishErase_some_some]
    by_cases her : (if (some e : Option Nat) = some a then false
        else o.erase) = true
    · by_cases hae : a < e
      · -- the interior erase runs
        rw [if_pos her, if_pos hae]
        refine ⟨_, rfl, ?_, ?_, ?_, ?_, ?_⟩
        · refine ⟨sorted_eraseRange hp.sorted a e, ?_⟩
          obtain ⟨v0, hv0⟩ := hp.hasMin
          exact ⟨v0, mem_eraseRange_iff.mpr ⟨hv0, Or.inl (by omega)⟩⟩
        · exact fun p hp2 => Or.inl (mem_eraseRange_iff.mp hp2).1
        · refine leftFix_mono hp.leftFix
            (fun p hp2 => Or.inl (mem_eraseRange_iff.mp hp2).1)
            (fun p hpm hple => mem_eraseRange_iff.mpr ⟨hpm, Or.inl (by omega)⟩)
        · refine Or.inl ?_
          rintro p hp2 ⟨h1, h2⟩
          obtain ⟨hpm, hout⟩ := mem_eraseRange_iff.mp hp2
          have := hamin p hpm h1
          omega
        · exact Or.inl ⟨(e, we),
            mem_eraseRange_iff.mpr ⟨hwe, Or.inr (le_refl e)⟩, le_refl e⟩
      · -- flag set but the keys are in the wrong order: no erase
        rw [if_pos her, if_neg hae]
        have hane : (some e : Option Nat) ≠ some a := by
          intro hc
          rw [if_pos hc] at her
          cases her
        have haegt : e < a := by
          have : a ≠ e := fun hc => hane (by rw [hc])
          omega
        refine ⟨o.m, rfl, ⟨hp.sorted, hp.hasMin⟩, fun p hp2 => Or.inl hp2,
          hp.leftFix, ?_, Or.inl ⟨(e, we), hwe, le_refl e⟩⟩
        refine midFix_of_noMid ?_ (fun p hp2 => Or.inl hp2)
        rintro p hpm ⟨h1, h2⟩
        have := hamin p hpm h1
        omega
    · -- the erase flag is off
      rw [if_neg her]
      refine ⟨o.m, rfl, ⟨hp.sorted, hp.hasMin⟩, fun p hp2 => Or.inl hp2,
        hp.leftFix, ?_, Or.inl ⟨(e, we), hwe, le_refl e⟩⟩
      by_cases hae : (some e : Option Nat) = some a
      · -- the two iterators coincide, hence no key strictly inside (b, e)
        have hea : a = e := by injection hae.symm
        subst hea
        refine midFix_of_noMid ?_ (fun p hp2 => Or.inl hp2)
        rintro p hpm ⟨h1, h2⟩
        have := hamin p hpm h1
        omega
      · -- the flag was already false after phase 1
        rw [if_neg hae] at her
        have hall := hp.erFalse (by
          cases hoe : o.erase
          · rfl
          · rw [hoe] at her; exact absurd rfl her)
        refine midFix_of_noMid ?_ (fun p hp2 => Or.inl hp2)
        rintro p hpm ⟨h1, h2⟩
        have := hall p hpm
        omega

theorem phase2_post_skipcase {m : IMap} {b val : Nat} {o : Phase1Out}
    (hp : Phase1Post m b val o) {e : Nat} (hbe : b < e)
    (hnf : lowerBound o.m e ≠ some e) {pE : Entry}
    (hIGB : IGB o.m e pE)
    (hpred : pred o.m (lowerBound o.m e) = some pE)
    (hEV : (if some pE.1 ≠ o.begin1 then pE.2 else o.endValue) = val) :
    ∃ m1, phase2 e val o = some m1 ∧ Post2 o.m m1 b e val := by
  obtain ⟨hpEm, hpEe, hpEmax⟩ := hIGB
  rw [phase2_eq_skip hnf hpred hEV]
  cases hend : lowerBound o.m e with
  | none =>
    -- every key lies below e; nothing is erased
    have hall : ∀ p ∈ o.m, p.1 < e := lb_none_iff.mp hend
    rw [finishErase_ee_none]
    refine ⟨o.m, rfl, ⟨hp.sorted, hp.hasMin⟩, fun p hp2 => Or.inl hp2,
      hp.leftFix, Or.inr hall, Or.inr ?_⟩
    intro pl hplm hplmax
    have hplE : pl = pE := by
      refine entry_unique hp.sorted hplm hpEm ?_
      have h1 : pE.1 ≤ pl.1 := hplmax pE hpEm
      have h2 : pl.1 ≤ pE.1 := hpEmax pl hplm (hall pl hplm)
      omega
    subst hplE
    by_cases hbg : (some pl.1 : Option Nat) = o.begin1
    · rw [if_neg (by simpa using hbg)] at hEV
      rcases hp.bgSome pl.1 hbg.symm with hjb | ⟨hnkb, _, hbj, hjmin⟩
      · exact Or.inr (Or.inl (le_of_eq hjb))
      · refine Or.inr (Or.inr ⟨hnkb, ?_⟩)
        intro q hq hbq
        have h1 : pl.1 ≤ q.1 := hjmin q hq hbq
        have h2 : q.1 ≤ pl.1 := hplmax q hq
        omega
    · rw [if_pos (by simpa using hbg)] at hEV
      exact Or.inl hEV
  | some j =>
    obtain ⟨wj, hwj, hej⟩ := lb_mem_le hend
    have hjne : j ≠ e := fun hc => hnf (by rw [hend, hc])
    have hje : e < j := by omega
    cases heb : o.eraseBegin with
    | none =>
      rw [finishErase_eb_none]
      have hall := hp.ebNone heb
      refine ⟨o.m, rfl, ⟨hp.sorted, hp.hasMin⟩, fun p hp2 => Or.inl hp2,
        hp.leftFix, ?_, Or.inl ⟨(j, wj), hwj, le_of_lt hje⟩⟩
      refine midFix_of_noMid ?_ (fun p hp2 => Or.inl hp2)
      rintro p hpm ⟨h1, h2⟩
      have := hall p hpm
      omega
    | some a =>
      obtain ⟨⟨wa, hwa⟩, hba, hamin⟩ := hp.ebSome a heb
      rw [finishErase_some_some]
      by_cases her : (if (some j : Option Nat) = some a then false
          else o.erase) = true
      · by_cases haj : a < j
        · -- the interior erase runs up to j
          rw [if_pos her, if_pos haj]
          refine ⟨_, rfl, ?_, ?_, ?_, ?_, ?_⟩
          · refine ⟨sorted_eraseRange hp.sorted a j, ?_⟩
            obtain ⟨v0, hv0⟩ := hp.hasMin
            exact ⟨v0, mem_eraseRange_iff.mpr ⟨hv0, Or.inl (by omega)⟩⟩
          · exact fun p hp2 => Or.inl (mem_eraseRange_iff.mp hp2).1
          · exact leftFix_mono hp.leftFix
              (fun p hp2 => Or.inl (mem_eraseRange_iff.mp hp2).1)
              (fun p hpm hple =>
                mem_eraseRange_iff.mpr ⟨hpm, Or.inl (by omega)⟩)
          · refine Or.inl ?_
            rintro p hp2 ⟨h1, h2⟩
            obtain ⟨hpm, hout⟩ := mem_eraseRange_iff.mp hp2
            have := hamin p hpm h1
            omega
          · exact Or.inl ⟨(j, wj),
              mem_eraseRange_iff.mpr ⟨hwj, Or.inr (le_refl j)⟩, le_of_lt hje⟩
        · -- flag set but keys in the wrong order: no erase
          rw [if_pos her, if_neg haj]
          have hane : (some j : Option Nat) ≠ some a := by
            intro hc
            rw [if_pos hc] at her
            cases her
          have haj2 : j < a := by
            have : a ≠ j := fun hc => hane (by rw [hc])
            omega
          refine ⟨o.m, rfl, ⟨hp.sorted, hp.hasMin⟩, fun p hp2 => Or.inl hp2,
            hp.leftFix, ?_, Or.inl ⟨(j, wj), hwj, le_of_lt hje⟩⟩
          refine midFix_of_noMid ?_ (fun p hp2 => Or.inl hp2)
          rintro p hpm ⟨h1, h2⟩
          have := hamin p hpm h1
          omega
      · -- the erase flag is off
        rw [if_neg her]
        refine ⟨o.m, rfl, ⟨hp.sorted, hp.hasMin⟩, fun p hp2 => Or.inl hp2,
          hp.leftFix, ?_, Or.inl ⟨(j, wj), hwj, le_of_lt hje⟩⟩
        by_cases hja : (some j : Option Nat) = some a
        · have hja2 : a = j := by injection hja.symm
          subst hja2
          refine midFix_of_noMid ?_ (fun p hp2 => Or.inl hp2)
          rintro p hpm ⟨h1, h2⟩
          have := hamin p hpm h1
          omega
        · rw [if_neg hja] at her
          have hall := hp.erFalse (by
            cases hoe : o.erase
            · rfl
            · rw [hoe] at her; exact absurd rfl her)
          refine midFix_of_noMid ?_ (fun p hp2 => Or.inl hp2)
          rintro p hpm ⟨h1, h2⟩
          have := hall p hpm
          omega

theorem phase2_post_insertcase {m : IMap} {b val : Nat} {o : Phase1Out}
    (hp : Phase1Post m b val o) {e : Nat} (hbe : b < e)
    (hnf : lowerBound o.m e ≠ some e) {pE : Entry}
    (hpred : pred o.m (lowerBound o.m e) = some pE) {ev : Nat}
    (hevdef : (if some pE.1 ≠ o.begin1 then pE.2 else o.endValue) = ev)
    (hEV : ev ≠ val) :
    ∃ m1, phase2 e val o = some m1 ∧ Post2 o.m m1 b e val := by
  have hnkE : ¬ hasKey o.m e := not_hasKey_of_lb_ne hp.sorted hnf
  rw [phase2_eq_insert hnf hpred hevdef hEV]
  -- facts about the map after the insertion of (e, ev)
  have hs2 : SortedKeys (insertEntry o.m (e, ev)) :=
    sorted_insertEntry hp.sorted _
  have he2 : ((e, ev) : Entry) ∈ insertEntry o.m (e, ev) :=
    self_mem_insertEntry hnkE
  -- facts about the map after the conditional erasure of the successor
  have hM3 : eraseNextIfRedundant (insertEntry o.m (e, ev)) e ev =
        insertEntry o.m (e, ev) ∨
      ∃ nk, e < nk ∧
        eraseNextIfRedundant (insertEntry o.m (e, ev)) e ev =
          eraseKey (insertEntry o.m (e, ev)) nk := by
    cases hub : upperBound (insertEntry o.m (e, ev)) e with
    | none =>
      left
      unfold eraseNextIfRedundant
      rw [hub]
    | some nk =>
      obtain ⟨wk, hwk, henk⟩ := ub_mem_lt hub
      by_cases hvk : valueAtD (insertEntry o.m (e, ev)) nk = ev
      · refine Or.inr ⟨nk, henk, ?_⟩
        unfold eraseNextIfRedundant
        rw [hub]
        show (if valueAtD (insertEntry o.m (e, ev)) nk = ev
            then eraseKey (insertEntry o.m (e, ev)) nk
            else insertEntry o.m (e, ev)) = _
        rw [if_pos hvk]
      · left
        unfold eraseNextIfRedundant
        rw [hub]
        show (if valueAtD (insertEntry o.m (e, ev)) nk = ev
            then eraseKey (insertEntry o.m (e, ev)) nk
            else insertEntry o.m (e, ev)) = _
        rw [if_neg hvk]
  have hs3 : SortedKeys (eraseNextIfRedundant (insertEntry o.m (e, ev)) e ev) := by
    rcases hM3 with h | ⟨nk, _, h⟩ <;> rw [h]
    · exact hs2
    · exact sorted_eraseKey hs2 nk
  have he3 : ((e, ev) : Entry) ∈
      eraseNextIfRedundant (insertEntry o.m (e, ev)) e ev := by
    rcases hM3 with h | ⟨nk, hnk, h⟩ <;> rw [h]
    · exact he2
    · exact mem_eraseKey_iff.mpr ⟨he2, by simp only; omega⟩
  have hsub3 : ∀ p ∈ eraseNextIfRedundant (insertEntry o.m (e, ev)) e ev,
      p ∈ o.m ∨ p = (e, ev) := by
    intro p hp2
    rcases hM3 with h | ⟨nk, hnk, h⟩ <;> rw [h] at hp2
    · exact mem_insertEntry_elim hp2
    · exact mem_insertEntry_elim (mem_eraseKey_iff.mp hp2).1
  have hkeep3 : ∀ p ∈ o.m, p.1 ≤ e →
      p ∈ eraseNextIfRedundant (insertEntry o.m (e, ev)) e ev := by
    intro p hpm hple
    rcases hM3 with h | ⟨nk, hnk, h⟩ <;> rw [h]
    · exact mem_insertEntry_of_mem hpm
    · exact mem_eraseKey_iff.mpr ⟨mem_insertEntry_of_mem hpm, by omega⟩
  have hmin3 : HasMin (eraseNextIfRedundant (insertEntry o.m (e, ev)) e ev) := by
    obtain ⟨v0, hv0⟩ := hp.hasMin
    exact ⟨v0, hkeep3 _ hv0 (by omega)⟩
  -- now evaluate the final erase
  cases heb : o.eraseBegin with
  | none =>
    rw [finishErase_eb_none]
    have hall := hp.ebNone heb
    refine ⟨_, rfl, ⟨hs3, hmin3⟩, ?_, ?_, ?_, ?_⟩
    · intro p hp2
      rcases hsub3 p hp2 with hm | rfl
      · exact Or.inl hm
      · exact Or.inr rfl
    · refine leftFix_mono hp.leftFix ?_ ?_
      · intro p hp2
        rcases hsub3 p hp2 with hm | rfl
        · exact Or.inl hm
        · exact Or.inr (by simp only; omega)
      · intro p hpm hple
        exact hkeep3 p hpm (by omega)
    · refine midFix_of_noMid (M := o.m) ?_ ?_
      · rintro p hpm ⟨h1, _⟩
        have := hall p hpm
        omega
      · intro p hp2
        rcases hsub3 p hp2 with hm | rfl
        · exact Or.inl hm
        · exact Or.inr (by simp only; omega)
    · exact Or.inl ⟨(e, ev), he3, le_refl e⟩
  | some a =>
    obtain ⟨⟨wa, hwa⟩, hba, hamin⟩ := hp.ebSome a heb
    rw [finishErase_some_some]
    by_cases her : (if lowerBound o.m e = some a then false
        else o.erase) = true
    · by_cases hae : a < e
      · -- the interior erase runs on the inserted map
        rw [if_pos her, if_pos hae]
        refine ⟨_, rfl, ?_, ?_, ?_, ?_, ?_⟩
        · refine ⟨sorted_eraseRange hs3 a e, ?_⟩
          obtain ⟨v0, hv0⟩ := hmin3
          exact ⟨v0, mem_eraseRange_iff.mpr ⟨hv0, Or.inl (by omega)⟩⟩
        · intro p hp2
          rcases hsub3 p (mem_eraseRange_iff.mp hp2).1 with hm | rfl
          · exact Or.inl hm
          · exact Or.inr rfl
        · refine leftFix_mono hp.leftFix ?_ ?_
          · intro p hp2
            rcases hsub3 p (mem_eraseRange_iff.mp hp2).1 with hm | rfl
            · exact Or.inl hm
            · exact Or.inr (by simp only; omega)
          · intro p hpm hple
            exact mem_eraseRange_iff.mpr
              ⟨hkeep3 p hpm (by omega), Or.inl (by omega)⟩
        · refine Or.inl ?_
          rintro p hp2 ⟨h1, h2⟩
          obtain ⟨hp3, hout⟩ := mem_eraseRange_iff.mp hp2
          rcases hsub3 p hp3 with hm | rfl
          · have := hamin p hm h1
            omega
          · simp only at h2
            omega
        · exact Or.inl ⟨(e, ev),
            mem_eraseRange_iff.mpr ⟨he3, Or.inr (le_refl e)⟩, le_refl e⟩
      · -- flag set but keys in the wrong order: no erase
        rw [if_pos her, if_neg hae]
        have hint : ∀ p ∈ o.m, ¬ (b < p.1 ∧ p.1 < e) := by
          rintro p hpm ⟨h1, h2⟩
          have := hamin p hpm h1
          omega
        refine ⟨_, rfl, ⟨hs3, hmin3⟩, ?_, ?_, ?_, Or.inl ⟨(e, ev), he3, le_refl e⟩⟩
        · intro p hp2
          rcases hsub3 p hp2 with hm | rfl
          · exact Or.inl hm
          · exact Or.inr rfl
        · refine leftFix_mono hp.leftFix ?_ ?_
          · intro p hp2
            rcases hsub3 p hp2 with hm | rfl
            · exact Or.inl hm
            · exact Or.inr (by simp only; omega)
          · intro p hpm hple
            exact hkeep3 p hpm (by omega)
        · refine midFix_of_noMid (M := o.m) hint ?_
          intro p hp2
          rcases hsub3 p hp2 with hm | rfl
          · exact Or.inl hm
          · exact Or.inr (by simp only; omega)
    · -- the erase flag is off
      rw [if_neg her]
      have hint : ∀ p ∈ o.m, ¬ (b < p.1 ∧ p.1 < e) := by
        by_cases hja : lowerBound o.m e = some a
        · obtain ⟨wj, hwj, hej⟩ := lb_mem_le hja
          rintro p hpm ⟨h1, h2⟩
          have := hamin p hpm h1
          omega
        · rw [if_neg hja] at her
          have hall := hp.erFalse (by
            cases hoe : o.erase
            · rfl
            · rw [hoe] at her; exact absurd rfl her)
          rintro p hpm ⟨h1, h2⟩
          have := hall p hpm
          omega
      refine ⟨_, rfl, ⟨hs3, hmin3⟩, ?_, ?_, ?_, Or.inl ⟨(e, ev), he3, le_refl e⟩⟩
      · intro p hp2
        rcases hsub3 p hp2 with hm | rfl
        · exact Or.inl hm
        · exact Or.inr rfl
      · refine leftFix_mono hp.leftFix ?_ ?_
        · intro p hp2
          rcases hsub3 p hp2 with hm | rfl
          · exact Or.inl hm
          · exact Or.inr (by simp only; omega)
        · intro p hpm hple
          exact hkeep3 p hpm (by omega)
      · refine midFix_of_noMid (M := o.m) hint ?_
        intro p hp2
        rcases hsub3 p hp2 with hm | rfl
        · exact Or.inl hm
        · exact Or.inr (by simp only; omega)

theorem phase2_post {m : IMap} {b val : Nat} {o : Phase1Out}
    (hp : Phase1Post m b val o) {e : Nat} (hbe : b < e) :
    ∃ m1, phase2 e val o = some m1 ∧ Post2 o.m m1 b e val := by
  by_cases hfound : lowerBound o.m e = some e
  · exact phase2_post_found hp hbe hfound
  · have hexists : ∃ q ∈ o.m, q.1 < e := by
      rcases hp.leftFix with hb | ⟨hnk, pv, ⟨hpm, hpl, _⟩, _⟩
      · exact ⟨(b, val), hb, hbe⟩
      · exact ⟨pv, hpm, by omega⟩
    obtain ⟨q0, hq0m, hq0e⟩ := hexists
    obtain ⟨pE, hpE⟩ := IGB_exists hp.sorted hq0m hq0e
    have hnkE : ¬ hasKey o.m e := not_hasKey_of_lb_ne hp.sorted hfound
    have hpred := pred_lb_eq hp.sorted hnkE hpE
    by_cases hEV : (if some pE.1 ≠ o.begin1 then pE.2 else o.endValue) = val
    · exact phase2_post_skipcase hp hbe hfound hpE hpred hEV
    · exact phase2_post_insertcase hp hbe hfound hpred rfl hEV

theorem assign_post {m : IMap} (hw : WF m) {b e val : Nat} (hbe : b < e) :
    ∃ m1, assign m b e val = some m1 ∧ WF m1 ∧
      (∀ p ∈ m1, p ∈ m ∨ p.1 = b ∨ p.1 = e) ∧
      LeftFix m1 b val ∧ MidFix m1 b e ∧ RightFix m1 b e val := by
  obtain ⟨hs, hmin⟩ := hw
  obtain ⟨o, ho, hpost⟩ := phase1_post hs hmin b val
  obtain ⟨m1, hm1, hwf1, hsub1, hl, hmid, hr⟩ := phase2_post hpost hbe
  refine ⟨m1, ?_, hwf1, ?_, hl, hmid, hr⟩
  · unfold assign
    rw [if_pos hbe, ho]
    exact hm1
  · intro p hp1
    rcases hsub1 p hp1 with hm2 | he
    · rcases hpost.subset p hm2 with hm3 | hb2
      · exact Or.inl hm3
      · exact Or.inr (Or.inl hb2)
    · exact Or.inr (Or.inr he)

/-- A well-formed state satisfying the three fixpoint conditions is left
exactly unchanged by `assign b e val`.  Together with `assign_post` this
proves that `assign` is idempotent. -/
theorem assign_fixpoint {m1 : IMap} (hw : WF m1) {b e val : Nat}
    (hbe : b < e) (hL : LeftFix m1 b val) (hM : MidFix m1 b e)
    (hR : RightFix m1 b e val) : assign m1 b e val = some m1 := by
  obtain ⟨hs, hmin⟩ := hw
  have hclear : ∀ (x : Nat) (c : Bool),
      (if (some x : Option Nat) = some x then false else c) = false :=
    fun x c => if_pos rfl
  rcases hL with hbval | ⟨hnk, pv, hIGB, hval⟩
  · -- left phase: the entry at b already holds val, overwrite is the identity
    have hlb : lowerBound m1 b = some b := lb_eq_some_of_mem hs hbval
    have hvd : valueAtD m1 b = val := valueAtD_of_mem hs hbval
    have hsv : setValue m1 b val = m1 := by
      refine setValue_id ?_
      intro p hp hpk
      have : p = (b, val) := entry_unique hs hp hbval hpk
      rw [this]
    unfold assign
    rw [if_pos hbe, phase1_eq_found hlb, hsv, hvd]
    show phase2 e val
      ⟨m1, some b, upperBound m1 b, val, (upperBound m1 b).isSome⟩ = some m1
    by_cases hfound : lowerBound m1 e = some e
    · -- e is a key: the left-successor search lands exactly on e
      obtain ⟨we, hwe, -⟩ := lb_mem_le hfound
      have hNoMid : ∀ p ∈ m1, ¬ (b < p.1 ∧ p.1 < e) := by
        rcases hM with h | h
        · exact h
        · have := h (e, we) hwe
          simp only at this
          omega
      have hub : upperBound m1 b = some e := by
        refine ub_eq_some_intro hs hwe hbe ?_
        intro p hp hbp
        have := hNoMid p hp
        omega
      rw [phase2_eq_found hfound]
      dsimp only
      rw [hub, hclear, finishErase_some_some]
      simp
    · -- e is not a key
      have hnkE : ¬ hasKey m1 e := not_hasKey_of_lb_ne hs hfound
      obtain ⟨pE, hpE⟩ := IGB_exists hs hbval hbe
      have hpredE := pred_lb_eq hs hnkE hpE
      obtain ⟨hpEm, hpEe, hpEmax⟩ := hpE
      have hbpE : b ≤ pE.1 := hpEmax (b, val) hbval hbe
      have hEV : (if (some pE.1 : Option Nat) ≠ some b then pE.2 else val)
          = val := by
        by_cases hpb : pE.1 = b
        · rw [if_neg (by simp [hpb])]
        · rw [if_pos (by simp [hpb])]
          rcases hM with hNoMid | hAllLt
          · exact absurd (hNoMid pE hpEm) (by omega)
          · rcases hR with ⟨q, hq, hqe⟩ | hRf
            · exact absurd (hAllLt q hq) (by omega)
            · have hmax : ∀ q ∈ m1, q.1 ≤ pE.1 :=
                fun q hq => hpEmax q hq (hAllLt q hq)
              rcases hRf pE hpEm hmax with h | h | ⟨hnkb, _⟩
              · exact h
              · omega
              · exact absurd ⟨val, hbval⟩ hnkb
      rw [phase2_eq_skip hfound hpredE hEV]
      dsimp only
      cases hend : lowerBound m1 e with
      | none => rw [finishErase_ee_none]
      | some j =>
        obtain ⟨wj, hwj, hej⟩ := lb_mem_le hend
        have hjne : j ≠ e := fun hc => hfound (by rw [hend, hc])
        have hNoMid : ∀ p ∈ m1, ¬ (b < p.1 ∧ p.1 < e) := by
          rcases hM with h | h
          · exact h
          · have := h (j, wj) hwj
            simp only at this
            omega
        have hub : upperBound m1 b = some j := by
          refine ub_eq_some_intro hs hwj (by omega) ?_
          intro p hp hbp
          have h1 := hNoMid p hp
          have h2 : e ≤ p.1 := by
            rcases Nat.lt_or_ge p.1 e with h3 | h3
            · omega
            · exact h3
          exact lb_min hs hend p hp h2
        rw [hub, hclear, finishErase_some_some]
        simp
  · -- left phase: b is absent and merged to the left, skip branch again
    obtain ⟨hpvm, hpvb, hpvmax⟩ := id hIGB
    have hlb_ne : lowerBound m1 b ≠ some b := by
      intro hc
      obtain ⟨w, hw, -⟩ := lb_mem_le hc
      exact hnk ⟨w, hw⟩
    have hpredb : pred m1 (lowerBound m1 b) = some pv := pred_lb_eq hs hnk hIGB
    unfold assign
    rw [if_pos hbe, phase1_eq_skip hlb_ne hpredb hval]
    show phase2 e val
      ⟨m1, lowerBound m1 b, lowerBound m1 b, pv.2, true⟩ = some m1
    by_cases hfound : lowerBound m1 e = some e
    · obtain ⟨we, hwe, -⟩ := lb_mem_le hfound
      have hNoMid : ∀ p ∈ m1, ¬ (b < p.1 ∧ p.1 < e) := by
        rcases hM with h | h
        · exact h
        · have := h (e, we) hwe
          simp only at this
          omega
      have hlbb : lowerBound m1 b = some e := by
        refine lb_eq_some_intro hs hwe (le_of_lt hbe) ?_
        intro p hp hbp
        have h1 : p.1 ≠ b := by
          intro hc
          exact hnk ⟨p.2, by rw [← hc]; exact hp⟩
        have := hNoMid p hp
        omega
      rw [phase2_eq_found hfound]
      dsimp only
      rw [hlbb, hclear, finishErase_some_some]
      simp
    · have hnkE : ¬ hasKey m1 e := not_hasKey_of_lb_ne hs hfound
      obtain ⟨pE, hpE⟩ := IGB_exists (k := e) hs hpvm (by omega)
      have hpredE := pred_lb_eq hs hnkE hpE
      obtain ⟨hpEm, hpEe, hpEmax⟩ := hpE
      have hpvpE : pv.1 ≤ pE.1 := hpEmax pv hpvm (by omega)
      have hlowval : pE.1 < b → pE.2 = val := by
        intro hlt
        have h1 : pE.1 ≤ pv.1 := hpvmax pE hpEm hlt
        have h2 : pE = pv := entry_unique hs hpEm hpvm (by omega)
        rw [h2, hval]
      have hEV : (if (some pE.1 : Option Nat) ≠ lowerBound m1 b
          then pE.2 else pv.2) = val := by
        by_cases hbg : (some pE.1 : Option Nat) = lowerBound m1 b
        · rw [if_neg (by simpa using hbg), hval]
        · rw [if_pos (by simpa using hbg)]
          have hpEnb : pE.1 ≠ b := by
            intro hc
            exact hnk ⟨pE.2, by rw [← hc]; exact hpEm⟩
          rcases hM with hNoMid | hAllLt
          · have := hNoMid pE hpEm
            have hlt : pE.1 < b := by omega
            exact hlowval hlt
          · rcases hR with ⟨q, hq, hqe⟩ | hRf
            · exact absurd (hAllLt q hq) (by omega)
            · have hmax : ∀ q ∈ m1, q.1 ≤ pE.1 :=
                fun q hq => hpEmax q hq (hAllLt q hq)
              rcases hRf pE hpEm hmax with h | h | ⟨hnkb, hOnly⟩
              · exact h
              · exact hlowval (by omega)
              · rcases Nat.lt_or_ge pE.1 b with hlt | hge
                · exact hlowval hlt
                · exfalso
                  refine hbg ?_
                  refine (lb_eq_some_intro hs hpEm hge ?_).symm
                  intro p hp hbp
                  rw [hOnly p hp hbp]
      rw [phase2_eq_skip hfound hpredE hEV]
      dsimp only
      cases hend : lowerBound m1 e with
      | none => rw [finishErase_ee_none]
      | some j =>
        obtain ⟨wj, hwj, hej⟩ := lb_mem_le hend
        have hjne : j ≠ e := fun hc => hfound (by rw [hend, hc])
        have hNoMid : ∀ p ∈ m1, ¬ (b < p.1 ∧ p.1 < e) := by
          rcases hM with h | h
          · exact h
          · have := h (j, wj) hwj
            simp only at this
            omega
        have hlbb : lowerBound m1 b = some j := by
          refine lb_eq_some_intro hs hwj (by omega) ?_
          intro p hp hbp
          have h1 : p.1 ≠ b := by
            intro hc
            exact hnk ⟨p.2, by rw [← hc]; exact hp⟩
          have h2 := hNoMid p hp
          have h3 : e ≤ p.1 := by omega
          exact lb_min hs hend p hp h3
        rw [hlbb, hclear, finishErase_some_some]
        simp

/-! ### Lemmas about whole runs -/

theorem init_WF (d : Nat) : WF (init d) :=
  ⟨List.pairwise_singleton _ _, ⟨d, List.mem_singleton.mpr rfl⟩⟩

theorem assign_WF {m m1 : IMap} (hw : WF m) {b e v : Nat}
    (h : assign m b e v = some m1) : WF m1 := by
  by_cases hbe : b < e
  · obtain ⟨m2, h2, hwf2, -, -, -, -⟩ := assign_post hw hbe
    rw [h2] at h
    injection h with h
    rw [← h]
    exact hwf2
  · unfold assign at h
    rw [if_neg hbe] at h
    injection h with h
    rw [← h]
    exact hw

theorem assign_subset {m m1 : IMap} (hw : WF m) {b e v : Nat}
    (h : assign m b e v = some m1) :
    ∀ p ∈ m1, p ∈ m ∨ p.1 = b ∨ p.1 = e := by
  by_cases hbe : b < e
  · obtain ⟨m2, h2, -, hsub, -, -, -⟩ := assign_post hw hbe
    rw [h2] at h
    injection h with h
    rw [← h]
    exact hsub
  · unfold assign at h
    rw [if_neg hbe] at h
    injection h with h
    rw [← h]
    exact fun p hp => Or.inl hp

theorem runFrom_WF :
    ∀ (ops : List (Nat × Nat × Nat)) {m mf : IMap}, WF m →
      runFrom m ops = some mf → WF mf := by
  intro ops
  induction ops with
  | nil =>
    intro m mf hw h
    injection h with h
    rw [← h]
    exact hw
  | cons op ops ih =>
    intro m mf hw h
    unfold runFrom at h
    cases ha : assign m op.1 op.2.1 op.2.2 with
    | none => rw [ha] at h; cases h
    | some m2 =>
      rw [ha] at h
      exact ih (assign_WF hw ha) h

theorem run_WF {d : Nat} {ops : List (Nat × Nat × Nat)} {m : IMap}
    (h : run d ops = some m) : WF m :=
  runFrom_WF ops (init_WF d) h

theorem runFrom_keys :
    ∀ (ops : List (Nat × Nat × Nat)) {m mf : IMap}, WF m →
      runFrom m ops = some mf →
      ∀ p ∈ mf, p ∈ m ∨ ∃ op ∈ ops, p.1 = op.1 ∨ p.1 = op.2.1 := by
  intro ops
  induction ops with
  | nil =>
    intro m mf hw h p hp
    injection h with h
    rw [← h] at hp
    exact Or.inl hp
  | cons op ops ih =>
    intro m mf hw h p hp
    unfold runFrom at h
    cases ha : assign m op.1 op.2.1 op.2.2 with
    | none => rw [ha] at h; cases h
    | some m2 =>
      rw [ha] at h
      rcases ih (assign_WF hw ha) h p hp with hm2 | ⟨op2, hop2, hk⟩
      · rcases assign_subset hw ha p hm2 with hm | hb | he
        · exact Or.inl hm
        · exact Or.inr ⟨op, List.mem_cons_self _ _, Or.inl hb⟩
        · exact Or.inr ⟨op, List.mem_cons_self _ _, Or.inr he⟩
      · exact Or.inr ⟨op2, List.mem_cons_of_mem _ hop2, hk⟩

/-! ### Settling the claims -/

/-- Claim C1: the claim states that for a bounded key domain, `lookup`
always agrees with a reference array mirroring the `assign` calls.  The
code refutes it: starting from default 0, after `assign(3,6,5)`,
`assign(0,3,7)` and `assign(1,5,7)`, the code returns `lookup(5) = 7`
while the reference array holds `A[5] = 5` (key 5 lies outside `[1,5)`,
so its value 5 from the first call should have been preserved).  This
theorem evaluates the embedded code at that failing input. -/
theorem C1_functional_equivalence_fails :
    run 0 [(3,6,5), (0,3,7), (1,5,7)] = some [(0,7), (6,0)] ∧
      lookup [(0,7), (6,0)] 5 = some 7 ∧
      refRun 0 [(3,6,5), (0,3,7), (1,5,7)] 5 = 5 :=
  ⟨rfl, rfl, rfl⟩

/-- Claim C2: the claim states that `assign(keyBegin, keyEnd, value)`
leaves `lookup(k)` unchanged for every `k` outside `[keyBegin, keyEnd)`.
The code refutes it: in the reachable state
`[(0,7), (3,5), (6,0)]`, the key `5` satisfies `keyEnd = 5 ≤ 5`, yet
`assign(1,5,7)` changes `lookup(5)` from `some 5` to `some 7`. -/
theorem C2_frame_violation :
    run 0 [(3,6,5), (0,3,7)] = some [(0,7), (3,5), (6,0)] ∧
      lookup [(0,7), (3,5), (6,0)] 5 = some 5 ∧
      assign [(0,7), (3,5), (6,0)] 1 5 7 = some [(0,7), (6,0)] ∧
      lookup [(0,7), (6,0)] 5 = some 7 :=
  ⟨rfl, rfl, rfl, rfl⟩

/-- Claim C3: the claim states invariant I2 (no two consecutive entries
hold equal values) after any sequence of `assign` calls.  The code
refutes it: after `assign(5,10,7)` and `assign(0,5,7)` from default 0,
the stored collection is `[(0,7), (5,7), (10,0)]`, whose first two
consecutive entries both hold 7. -/
theorem C3_canonical_form_violated :
    run 0 [(5,10,7), (0,5,7)] = some [(0,7), (5,7), (10,0)] ∧
      canonical [(0,7), (5,7), (10,0)] = false :=
  ⟨rfl, rfl⟩

/-- Claim C4: the spec's concrete scenario.  After `assign(2,5,7)` the
four stated lookups hold, but the code refutes the rest of the scenario:
`assign(4,8,7)` leaves the collection completely unchanged (the
breakpoint `(5,0)` is not removed, and `lookup(5) = some 0` and
`lookup(7) = some 0` instead of the stated 7), and the final
`assign(0,10,0)` is also a no-op, leaving three entries instead of
collapsing to the single entry `(0,0)` (e.g. `lookup(3) = some 7`). -/
theorem C4_concrete_scenario_diverges :
    run 0 [(2,5,7)] = some [(0,0), (2,7), (5,0)] ∧
      lookup [(0,0), (2,7), (5,0)] 1 = some 0 ∧
      lookup [(0,0), (2,7), (5,0)] 2 = some 7 ∧
      lookup [(0,0), (2,7), (5,0)] 4 = some 7 ∧
      lookup [(0,0), (2,7), (5,0)] 5 = some 0 ∧
      run 0 [(2,5,7), (4,8,7)] = some [(0,0), (2,7), (5,0)] ∧
      lookup [(0,0), (2,7), (5,0)] 7 = some 0 ∧
      run 0 [(2,5,7), (4,8,7), (0,10,0)] = some [(0,0), (2,7), (5,0)] ∧
      lookup [(0,0), (2,7), (5,0)] 3 = some 7 :=
  ⟨rfl, rfl, rfl, rfl, rfl, rfl, rfl, rfl, rfl⟩

/-- Claim C5: after the constructor and after every sequence of `assign`
calls, the collection is non-empty and contains an entry at the minimum
representable key (0 for `unsigned int`); `assign` never erases it. -/
theorem C5_min_key_invariant {d : Nat} {ops : List (Nat × Nat × Nat)}
    {m : IMap} (h : run d ops = some m) :
    m ≠ [] ∧ ∃ v, (0, v) ∈ m := by
  obtain ⟨v, hv⟩ := (run_WF h).2
  refine ⟨?_, v, hv⟩
  intro hc
  rw [hc] at hv
  cases hv

/-- Witness for C5 at a concrete input. -/
theorem C5_min_key_invariant_witness :
    ([(0, 0)] : IMap) ≠ [] ∧ ∃ v, ((0 : Nat), v) ∈ ([(0, 0)] : IMap) :=
  @C5_min_key_invariant 0 [] [(0, 0)] rfl

/-- Claim C6: `assign` with `¬(keyBegin < keyEnd)` returns the collection
exactly unchanged, so every subsequent lookup result is unchanged. -/
theorem C6_noop_on_empty_range (m : IMap) (b e v : Nat) (h : ¬ b < e) :
    assign m b e v = some m := by
  unfold assign
  rw [if_neg h]

/-- Witness for C6 at a concrete input. -/
theorem C6_noop_on_empty_range_witness :
    assign [(0, 5)] 3 3 9 = some [(0, 5)] :=
  C6_noop_on_empty_range [(0, 5)] 3 3 9 (by decide)

/-- Claim C7: on any well-formed state (every state of the C++ object is
of this shape: keys strictly sorted with the minimum key present), calling
`assign(b,e,v)` twice in a row yields the same collection, entry for
entry, as calling it once. -/
theorem C7_assign_idempotent {m m1 : IMap} (hw : WF m) {b e v : Nat}
    (h : assign m b e v = some m1) : assign m1 b e v = some m1 := by
  by_cases hbe : b < e
  · obtain ⟨m2, h2, hwf, -, hl, hmid, hr⟩ := assign_post hw hbe
    rw [h2] at h
    injection h with h
    rw [← h]
    exact assign_fixpoint hwf hbe hl hmid hr
  · unfold assign at h
    rw [if_neg hbe] at h
    injection h with h
    rw [← h]
    unfold assign
    rw [if_neg hbe]

/-- Witness for C7 at a concrete input. -/
theorem C7_assign_idempotent_witness :
    assign [(0,0), (1,5), (3,0)] 1 3 5 = some [(0,0), (1,5), (3,0)] :=
  C7_assign_idempotent (m := [(0, 0)])
    ⟨List.pairwise_singleton _ _, ⟨0, List.mem_singleton.mpr rfl⟩⟩ rfl

/-- Claim C8: in every reachable state, `lookup k` returns the value of
the stored entry with the greatest key that is at most `k`. -/
theorem C8_lookup_greatest_le {d : Nat} {ops : List (Nat × Nat × Nat)}
    {m : IMap} (h : run d ops = some m) {k a v : Nat}
    (hmem : (a, v) ∈ m) (hak : a ≤ k)
    (hmax : ∀ p ∈ m, p.1 ≤ k → p.1 ≤ a) : lookup m k = some v := by
  have hs := (run_WF h).1
  unfold lookup
  cases hub : upperBound m k with
  | none =>
    have hall := ub_none_iff.mp hub
    have hpred : pred m none = some (a, v) :=
      pred_none_intro hs hmem (fun p hp => hmax p hp (hall p hp))
    rw [hpred]
    rfl
  | some j =>
    obtain ⟨w, hjm, hkj⟩ := ub_mem_lt hub
    have hminj := ub_min hs hub
    have hpred : pred m (some j) = some (a, v) := by
      refine pred_some_intro hs hmem (by omega) ?_
      intro p hp hpj
      refine hmax p hp ?_
      by_contra hc
      have := hminj p hp (by omega)
      omega
    rw [hpred]
    rfl

/-- Witness for C8 at a concrete input. -/
theorem C8_lookup_greatest_le_witness : lookup [(0, 4)] 7 = some 4 :=
  @C8_lookup_greatest_le 4 [] [(0, 4)] rfl 7 0 4 (by decide) (by decide)
    (by decide)

/-- Claim C9: in every reachable state, `lookup` succeeds for every key:
the decrement of `upper_bound` never falls off the front of the
collection, because an entry with key at most `k` always exists. -/
theorem C9_lookup_total {d : Nat} {ops : List (Nat × Nat × Nat)}
    {m : IMap} (h : run d ops = some m) :
    ∀ k, (lookup m k).isSome = true := by
  obtain ⟨hs, v0, hv0⟩ := run_WF h
  intro k
  unfold lookup
  cases hub : upperBound m k with
  | none =>
    have hne : m ≠ [] := by
      intro hc
      rw [hc] at hv0
      cases hv0
    obtain ⟨pv, hpv⟩ := getLast_isSome hne
    have hpred : pred m none = some pv := hpv
    rw [hpred]
    rfl
  | some j =>
    obtain ⟨w, hjm, hkj⟩ := ub_mem_lt hub
    have hmem := (mem_takeWhile_lt hs (j := j) (p := (0, v0))).mpr
      ⟨hv0, by omega⟩
    have hne : m.takeWhile (fun p => decide (p.1 < j)) ≠ [] := by
      intro hc
      rw [hc] at hmem
      cases hmem
    obtain ⟨pv, hpv⟩ := getLast_isSome hne
    have hpred : pred m (some j) = some pv := hpv
    rw [hpred]
    rfl

/-- Witness for C9 at a concrete input. -/
theorem C9_lookup_total_witness : (lookup [(0, 0)] 5).isSome = true :=
  @C9_lookup_total 0 [] [(0, 0)] rfl 5

/-- Claim C10: in every reachable state, every stored key is either the
minimum representable key 0 (inserted by the constructor) or the
`keyBegin` or `keyEnd` argument of some earlier `assign` call. -/
theorem C10_keys_from_calls {d : Nat} {ops : List (Nat × Nat × Nat)}
    {m : IMap} (h : run d ops = some m) :
    ∀ p ∈ m, p.1 = 0 ∨ ∃ op ∈ ops, p.1 = op.1 ∨ p.1 = op.2.1 := by
  intro p hp
  rcases runFrom_keys ops (init_WF d) h p hp with hm | hex
  · left
    rcases List.mem_singleton.mp hm with rfl
    rfl
  · exact Or.inr hex

/-- Witness for C10 at a concrete input. -/
theorem C10_keys_from_calls_witness :
    ((1, 5) : Entry).1 = 0 ∨
      ∃ op ∈ [((1 : Nat), (3 : Nat), (5 : Nat))],
        ((1, 5) : Entry).1 = op.1 ∨ ((1, 5) : Entry).1 = op.2.1 :=
  @C10_keys_from_calls 0 [(1, 3, 5)] [(0, 0), (1, 5), (3, 0)] rfl (1, 5)
    (by decide)

end IntervalMap
